import Mathlib

/-!
Shallow embedding of the `non_local_detector` likelihood backends
(`sorted_spikes_kde.py` and `sorted_spikes_glm_jax.py`) together with
theorems checking the natural-language specification against the code.

Modelling conventions:
* Arrays are `List`s (row-major: a 2-D array is a list of rows).
* Floating-point scalars are `Option ℝ`: `some x` is an ordinary value and
  `none` models IEEE NaN.  NaN arises in the source exactly where a mean is
  taken over an empty axis (`jnp.mean` of zero samples) or where NaN is
  written explicitly; the arithmetic on `Option ℝ` below follows IEEE NaN
  propagation for the operations the source uses.
* Fallible source behaviour (shape-rank errors raised by
  `jax.lax.dynamic_update_slice`, iteration over a 0-d array produced by
  `squeeze`) is modelled with an outer `Option`: `none` means the Python
  call raises.
* The external numerical libraries (patsy design-info evaluation and
  `scipy.optimize.minimize`) are opaque: they enter as function parameters.
-/

noncomputable section

/-- Floating-point scalar: `some x` is a finite value, `none` models IEEE NaN. -/
abbrev F := Option ℝ

/-- Epsilon floor used by both backends (`EPS = 1e-15` in both source files). -/
def EPS : ℝ := 1e-15

/-- Addition with NaN propagation. -/
def fadd : F → F → F
  | some a, some b => some (a + b)
  | _, _ => none

/-- Subtraction with NaN propagation. -/
def fsub : F → F → F
  | some a, some b => some (a - b)
  | _, _ => none

/-- Multiplication with NaN propagation (in IEEE, `0 * NaN = NaN`). -/
def fmul : F → F → F
  | some a, some b => some (a * b)
  | _, _ => none

/-- Division with NaN propagation.  The source only divides where the
denominator has been checked positive, so division by zero is not modelled. -/
def fdiv : F → F → F
  | some a, some b => some (a / b)
  | _, _ => none

/-- Exponential, mapping NaN to NaN. -/
def fexp : F → F := Option.map Real.exp

/-- Logarithm, mapping NaN to NaN (only applied to positive values here). -/
def flog : F → F := Option.map Real.log

/-- Model of `jnp.clip(x, a_min := lo)`: `maximum` propagates NaN. -/
def fclipMin (lo : ℝ) : F → F
  | some a => some (max a lo)
  | none => none

/-- Model of the boolean mask `x > 0.0`: a NaN comparison is `False`. -/
def fgt0 : F → Bool
  | some a => decide (0 < a)
  | none => false

/-- Model of `jnp.where(c, a, b)` at a single lane. -/
def fwhere (c : Bool) (a b : F) : F := if c then a else b

/-- Model of `jnp.sum` along an axis (sum of an empty axis is `0`, not NaN). -/
def fsum (l : List F) : F := l.foldl fadd (some 0)

/-- Model of `jax.scipy.special.xlogy k y`, which returns `0` whenever
`k = 0` (even for NaN `y`) and `k * log y` otherwise. -/
def fxlogy (k : ℕ) (y : F) : F := if k = 0 then some 0 else fmul (some (k : ℝ)) (flog y)

/-- Column `n` of a row-major 2-D array (used for `spikes.T` iteration). -/
def column (n : ℕ) (rows : List (List α)) (d : α) : List α := rows.map (fun r => r.getD n d)

/-- Number of columns (`.shape[1]`) of a rectangular row-major 2-D array. -/
def ncols (rows : List (List α)) : ℕ := (rows.headD []).length

/-- Dot product `row @ coefficients` on real vectors. -/
def dot (a b : List ℝ) : ℝ := (List.zipWith (fun x y => x * y) a b).sum

/-- Dot product of a possibly-NaN row with a real coefficient vector; any NaN
entry poisons the result, as in IEEE (`NaN * c + s = NaN`). -/
def fdot (row : List F) (c : List ℝ) : F :=
  (List.zipWith (fun a x => fmul a (some x)) row c).foldl fadd (some 0)

/-- Boolean-mask selection `xs[mask]` (NumPy fancy indexing). -/
def maskSelect (mask : List Bool) (xs : List α) : List α :=
  (List.zip mask xs).filterMap (fun p => if p.1 then some p.2 else none)

/-- Boolean-mask scatter `base.at[mask].set(vals)` (JAX): positions where the
mask is true receive the next unconsumed entry of `vals`, other positions keep
the base value. -/
def maskSet : List F → List Bool → List F → List F
  | [], _, _ => []
  | base, [], _ => base
  | b :: bs, true :: ms, vs => vs.headD b :: maskSet bs ms vs.tail
  | b :: bs, false :: ms, vs => b :: maskSet bs ms vs

/-- Option-valued traversal of a list, modelling a Python loop whose body can
raise: the loop result is `none` as soon as one iteration raises. -/
def optTraverse (f : α → Option β) : List α → Option (List β)
  | [] => some []
  | x :: xs =>
    match f x, optTraverse f xs with
    | some y, some ys => some (y :: ys)
    | _, _ => none

/-- Source `gaussian_pdf` from `sorted_spikes_kde.py`. -/
def gaussian_pdf (x mean sigma : ℝ) : ℝ :=
  Real.exp (-(0.5) * ((x - mean) / sigma) ^ 2) / (sigma * Real.sqrt (2 * Real.pi))

/-- Product over dimensions of the per-dimension Gaussian kernels: the
`distance` accumulator of source `kde`, starting from `ones` and multiplying
one factor per entry of `std`. -/
def kernelProduct (std ep s : List ℝ) : ℝ :=
  (List.range std.length).foldl
    (fun acc d => acc * gaussian_pdf (ep.getD d 0) (s.getD d 0) (std.getD d 0)) 1

/-- Source `kde`: per evaluation point, the mean over samples of the kernel
product.  `jnp.mean` over an empty sample axis is `0/0 = NaN`, hence `none`
when there are no samples. -/
def kde (eval_points samples : List (List ℝ)) (std : List ℝ) : List F :=
  eval_points.map (fun ep =>
    if samples.length = 0 then none
    else some ((samples.map (fun s => kernelProduct std ep s)).sum / (samples.length : ℝ)))

/-- Loop of source `block_kde`.  Each chunk is `eval_points[start : start+block]`.
The source applies `.squeeze()` to the chunk result (`kde` itself already
squeezes), so a chunk of length exactly 1 becomes a rank-0 array and
`jax.lax.dynamic_update_slice` raises a rank-mismatch error: modelled as
`none`.  A step of 0 raises `ValueError` in `range`. -/
def blockKDEGo (samples : List (List ℝ)) (std : List ℝ) : ℕ → List (List ℝ) → Option (List F)
  | _, [] => some []
  | 0, _ :: _ => none
  | b + 1, e :: es =>
    let chunk := (e :: es).take (b + 1)
    if chunk.length = 1 then none
    else
      match blockKDEGo samples std (b + 1) ((e :: es).drop (b + 1)) with
      | none => none
      | some rest => some (kde chunk samples std ++ rest)
termination_by _ e => e.length
decreasing_by simp [List.length_drop]; omega

/-- Source `block_kde`: evaluate `kde` on fixed-size chunks of the evaluation
points and write each result back into its slice of the output. -/
def block_kde (eval_points samples : List (List ℝ)) (std : List ℝ) (block_size : ℕ) :
    Option (List F) :=
  blockKDEGo samples std block_size eval_points

/-- Source `KDEModel` dataclass: bandwidth, optional block size, and (after
`fit`) the stored samples. -/
structure KDEModel where
  std : ℝ
  block_size : Option ℕ
  samples_ : List (List ℝ)

/-- Source `KDEModel.fit`: store the samples. -/
def KDEModel.fit (m : KDEModel) (samples : List (List ℝ)) : KDEModel :=
  { m with samples_ := samples }

/-- Source `KDEModel.predict`: broadcast the scalar bandwidth over the
evaluation dimensions, default the block size to all points at once, and call
`block_kde`. -/
def KDEModel.predict (m : KDEModel) (eval_points : List (List ℝ)) : Option (List F) :=
  let stdVec := List.replicate (ncols eval_points) m.std
  let bs := m.block_size.getD eval_points.length
  block_kde eval_points m.samples_ stdVec bs

/-- Result bundle of `fit_sorted_spikes_kde_encoding_model`. -/
structure KDEEncodingModel where
  marginal_models : List KDEModel
  occupancy_model : KDEModel
  occupancy : List F
  mean_rates : List F
  place_fields : List (List F)
  no_spike_part_log_likelihood : List F
  is_track_interior : List Bool

/-- Body of the per-neuron loop of `fit_sorted_spikes_kde_encoding_model`:
select the positions where neuron `n` spiked (`spikes.T.astype(bool)` mask),
fit the marginal KDE model, evaluate it at the interior bin centers, and build
the neuron's place field as
`zeros.at[is_track_interior].set(clip(rate * where(occupancy > 0, marginal / occupancy, EPS), a_min := EPS))`.
The neuron's mean rate is `jnp.mean` of its spike column (NaN when there are
no time steps). -/
def kdeNeuronFit (position : List (List ℝ)) (interiorCenters : List (List ℝ))
    (occupancy : List F) (position_std : ℝ) (block_size : ℕ)
    (is_track_interior : List Bool) (spikes : List (List ℕ)) (n : ℕ) :
    Option (KDEModel × List F) :=
  let cnt := column n spikes 0
  let neuron_spikes := cnt.map (fun c => c != 0)
  let neuron_mean_rate : F :=
    if spikes.length = 0 then none else some ((cnt.sum : ℝ) / (spikes.length : ℝ))
  let mm : KDEModel :=
    { std := position_std, block_size := some block_size,
      samples_ := maskSelect neuron_spikes position }
  match mm.predict interiorCenters with
  | none => none
  | some marginal_density =>
    let vals := List.zipWith
      (fun md occ =>
        fclipMin EPS (fmul neuron_mean_rate (fwhere (fgt0 occ) (fdiv md occ) (some EPS))))
      marginal_density occupancy
    some (mm, maskSet (List.replicate is_track_interior.length (some 0)) is_track_interior vals)

/-- Source `fit_sorted_spikes_kde_encoding_model`.  The occupancy model is fit
on all positions and evaluated at the interior bin centers only; each neuron is
fit by `kdeNeuronFit`; `no_spike_part_log_likelihood` is
`jnp.sum(place_fields, axis=0)`.  With exactly one neuron the source crashes:
`jnp.mean(spikes, axis=0).squeeze()` is then a 0-d array and `zip` raises
`TypeError` when iterating it; with zero neurons `jnp.stack([])` raises.
Both are modelled as `none`. -/
def fit_sorted_spikes_kde_encoding_model (position : List (List ℝ)) (spikes : List (List ℕ))
    (place_bin_centers : List (List ℝ)) (is_track_interior : List Bool)
    (position_std : ℝ) (block_size : ℕ) : Option KDEEncodingModel :=
  let occupancy_model : KDEModel :=
    { std := position_std, block_size := some block_size, samples_ := position }
  let interiorCenters := maskSelect is_track_interior place_bin_centers
  match occupancy_model.predict interiorCenters with
  | none => none
  | some occupancy =>
    let n_neurons := ncols spikes
    if n_neurons ≤ 1 then none
    else
      let mean_rates : List F := (List.range n_neurons).map (fun n =>
        if spikes.length = 0 then none
        else some (((column n spikes 0).sum : ℝ) / (spikes.length : ℝ)))
      match optTraverse
          (kdeNeuronFit position interiorCenters occupancy position_std block_size
            is_track_interior spikes)
          (List.range n_neurons) with
      | none => none
      | some results =>
        let place_fields := results.map Prod.snd
        let no_spike := (List.range is_track_interior.length).map (fun b =>
          fsum (place_fields.map (fun pf => pf.getD b (some 0))))
        some { marginal_models := results.map Prod.fst
               occupancy_model := occupancy_model
               occupancy := occupancy
               mean_rates := mean_rates
               place_fields := place_fields
               no_spike_part_log_likelihood := no_spike
               is_track_interior := is_track_interior }

/-- Non-local branch (`is_local = False`) of source
`predict_sorted_spikes_kde_log_likelihood`: accumulate
`xlogy(spikes[:, n, None], place_fields[n][None])` over neurons, subtract
`no_spike_part_log_likelihood` once per bin, then force bins outside
`is_track_interior` to `log(EPS)`. -/
def predict_sorted_spikes_kde_log_likelihood_nonlocal (spikes : List (List ℕ))
    (place_fields : List (List F)) (no_spike_part_log_likelihood : List F)
    (is_track_interior : List Bool) : List (List F) :=
  let nBins := ncols place_fields
  let nPairs := min (ncols spikes) place_fields.length
  spikes.map (fun srow =>
    (List.range nBins).map (fun b =>
      if is_track_interior.getD b false then
        fsub
          ((List.range nPairs).foldl (fun acc n =>
            fadd acc (fxlogy (srow.getD n 0) ((place_fields.getD n []).getD b (some 0))))
            (some 0))
          (no_spike_part_log_likelihood.getD b (some 0))
      else some (Real.log EPS)))

/-- Source `make_spline_predict_matrix` with the patsy design-info evaluation
abstracted as a per-row function `design_info`.  Rows of `position` holding a
NaN are first overwritten in place with `0.0`, the design matrix is built from
the overwritten buffer, and those rows of the design matrix are then set to
NaN.  The second component is the position buffer after the call (the caller's
array: `atleast_2d` returns the argument itself for 2-D input, so the
overwrite is visible to the caller). -/
def make_spline_predict_matrix (design_info : List ℝ → List ℝ) (position : List (List F)) :
    List (List F) × List (List F) :=
  let is_nan := position.map (fun row => row.any (fun x => x.isNone))
  let position2 := List.zipWith
    (fun b row => if b then row.map (fun _ => (some (0 : ℝ) : F)) else row) is_nan position
  let design_matrix := position2.map
    (fun row => (design_info (row.map (fun x => x.getD 0))).map (fun v => (some v : F)))
  (List.zipWith (fun b row => if b then row.map (fun _ => (none : F)) else row)
      is_nan design_matrix,
    position2)

/-- Poisson log-PMF `k * log mu - mu - log (k!)`, the value of
`jax.scipy.stats.poisson.logpmf(k, mu)` for positive rate `mu`
(`gammaln (k+1) = log (k!)` for natural `k`). -/
def poisson_logpmf (k : ℕ) (mu : ℝ) : ℝ :=
  (k : ℝ) * Real.log mu - mu - Real.log (Nat.factorial k)

/-- Three-way zip used to combine weights, spike counts and rates. -/
def zipWith3 (f : α → β → γ → δ) : List α → List β → List γ → List δ
  | a :: as, b :: bs, c :: cs => f a b c :: zipWith3 f as bs cs
  | _, _, _ => []

/-- Source `neglogp` inside `fit_poisson_regression`: the negated mean of
`weights * poisson.logpmf(spikes, clip(exp(design @ c), a_min := EPS))` plus
the L2 penalty `l2_penalty * sum(c[1:] ** 2)`. -/
def neglogp (design_matrix : List (List ℝ)) (spikes : List ℕ) (weights : List ℝ)
    (l2_penalty : ℝ) (coefficients : List ℝ) : ℝ :=
  let conditional_intensity :=
    design_matrix.map (fun row => max (Real.exp (dot row coefficients)) EPS)
  let terms := zipWith3 (fun w k r => w * poisson_logpmf k r) weights spikes conditional_intensity
  let negative_log_likelihood := -1 * (terms.sum / (terms.length : ℝ))
  let l2_penalty_term := l2_penalty * ((coefficients.drop 1).map (fun c => c ^ 2)).sum
  negative_log_likelihood + l2_penalty_term

/-- Source initial condition of `fit_poisson_regression`: the log of the
weighted average spike count followed by zeros. -/
def initial_condition (design_matrix : List (List ℝ)) (spikes : List ℕ) (weights : List ℝ) :
    List ℝ :=
  Real.log ((List.zipWith (fun wt (k : ℕ) => wt * (k : ℝ)) weights spikes).sum /
      weights.sum) ::
    List.replicate (ncols design_matrix - 1) 0

/-- Result record of `scipy.optimize.minimize`: the candidate minimizer and
the convergence flag. -/
structure OptimizeResult where
  x : List ℝ
  success : Bool

/-- Source `fit_poisson_regression`, with `scipy.optimize.minimize` abstracted
as a parameter: build the objective and the initial condition, run the
optimizer, and return only `res.x`. -/
def fit_poisson_regression (minimize : (List ℝ → ℝ) → List ℝ → OptimizeResult)
    (design_matrix : List (List ℝ)) (spikes : List ℕ) (weights : List ℝ)
    (l2_penalty : ℝ) : List ℝ :=
  (minimize (neglogp design_matrix spikes weights l2_penalty)
    (initial_condition design_matrix spikes weights)).x

/-- Result bundle of `fit_sorted_spikes_glm_jax_encoding_model` (the opaque
design-info object is the `design_info` parameter itself). -/
structure GLMEncodingModel where
  coefficients : List (List ℝ)
  place_fields : List (List F)
  is_track_interior : List Bool

/-- Per-neuron place field of the GLM fitter:
`exp(emission_predict_matrix @ coef)`, exterior bins overwritten with `EPS`,
then `clip(a_min := EPS)`. -/
def glmPlaceField (emission_predict_matrix : List (List F)) (coefficients : List ℝ)
    (is_track_interior : List Bool) : List F :=
  let place_field := emission_predict_matrix.map (fun row => fexp (fdot row coefficients))
  let masked := List.zipWith (fun b v => if b then v else some EPS) is_track_interior place_field
  masked.map (fclipMin EPS)

/-- Source `fit_sorted_spikes_glm_jax_encoding_model`: the training design
matrix (a patsy `dmatrix` result) and its design info are opaque inputs; the
predict matrix for the bin centers is built by `make_spline_predict_matrix`;
each neuron's coefficients come from `fit_poisson_regression` with unit
weights, and its place field from `glmPlaceField`.  (Modelled for the
non-raising executions: with zero neurons or zero time steps the source
raises in `np.stack` or `np.average`.) -/
def fit_sorted_spikes_glm_jax_encoding_model
    (minimize : (List ℝ → ℝ) → List ℝ → OptimizeResult)
    (design_info : List ℝ → List ℝ) (emission_design_matrix : List (List ℝ))
    (spikes : List (List ℕ)) (place_bin_centers : List (List F))
    (is_track_interior : List Bool) (l2_penalty : ℝ) : GLMEncodingModel :=
  let emission_predict_matrix := (make_spline_predict_matrix design_info place_bin_centers).1
  let weights := List.replicate spikes.length (1 : ℝ)
  let coefficients := (List.range (ncols spikes)).map (fun n =>
    fit_poisson_regression minimize emission_design_matrix (column n spikes 0) weights
      l2_penalty)
  { coefficients := coefficients
    place_fields := coefficients.map (fun coef =>
      glmPlaceField emission_predict_matrix coef is_track_interior)
    is_track_interior := is_track_interior }

/-- Poisson log-PMF on a possibly-NaN rate. -/
def fpoisson_logpmf (k : ℕ) (mu : F) : F := Option.map (fun m => poisson_logpmf k m) mu

/-- Non-local branch (`is_local = False`) of source
`predict_sorted_spikes_glm_jax_log_likelihood`: accumulate
`poisson.logpmf(spikes[:, n, None], place_fields[n][None])` over neurons, then
set bins outside `is_track_interior` to NaN. -/
def predict_sorted_spikes_glm_jax_log_likelihood_nonlocal (spikes : List (List ℕ))
    (place_fields : List (List F)) (is_track_interior : List Bool) : List (List F) :=
  let nBins := ncols place_fields
  let nPairs := min (ncols spikes) place_fields.length
  spikes.map (fun srow =>
    (List.range nBins).map (fun b =>
      if is_track_interior.getD b false then
        (List.range nPairs).foldl (fun acc n =>
          fadd acc (fpoisson_logpmf (srow.getD n 0) ((place_fields.getD n []).getD b (some 0))))
          (some 0)
      else none))

/-- Objective as worded by the specification (claim C8): the negated mean over
`T` samples of `weight * PoissonLogPMF(spike_count; rate)` with
`rate = exp(design_row . coefficients)` clipped below at epsilon, plus an L2
penalty over the coefficients of index 1 and above. -/
def neglogpSpec (T K : ℕ) (design_matrix : List (List ℝ)) (spikes : List ℕ)
    (weights : List ℝ) (l2_penalty : ℝ) (c : List ℝ) : ℝ :=
  -((∑ t ∈ Finset.range T, weights.getD t 0 *
        poisson_logpmf (spikes.getD t 0)
          (max (Real.exp
            (∑ j ∈ Finset.range K, (design_matrix.getD t []).getD j 0 * c.getD j 0)) EPS)) /
      (T : ℝ)) +
    l2_penalty * ∑ j ∈ Finset.Ico 1 K, c.getD j 0 ^ 2

/-- Initial point as worded by the specification (claim C8): intercept equal to
the log of the weighted mean spike count, all other coefficients zero. -/
def initial_conditionSpec (T K : ℕ) (spikes : List ℕ) (weights : List ℝ) : List ℝ :=
  Real.log ((∑ t ∈ Finset.range T, weights.getD t 0 * (spikes.getD t 0 : ℝ)) /
      (∑ t ∈ Finset.range T, weights.getD t 0)) ::
    List.replicate (K - 1) 0

/-- Marginal-model training set as worded by the specification (claim C9): the
position samples at exactly the time steps whose spike count is nonzero, each
such sample taken once regardless of the count's value. -/
def spikeCoincidentPositions (position : List (List ℝ)) (counts : List ℕ) : List (List ℝ) :=
  ((position.zip counts).filter (fun p => p.2 != 0)).map Prod.fst

/-! ### Helper lemmas -/

theorem getD_map_of_lt (f : α → β) (l : List α) (i : ℕ) (d : α) (d2 : β) (h : i < l.length) :
    (l.map f).getD i d2 = f (l.getD i d) := by
  induction l generalizing i with
  | nil => simp at h
  | cons x xs ih =>
    cases i with
    | zero => simp
    | succ n =>
      simp only [List.map_cons, List.getD_cons_succ]
      exact ih n (by simpa using Nat.lt_of_succ_lt_succ h)

theorem getD_zipWith_of_lt (f : α → β → γ) (as : List α) (bs : List β) (i : ℕ)
    (da : α) (db : β) (dc : γ) (ha : i < as.length) (hb : i < bs.length) :
    (List.zipWith f as bs).getD i dc = f (as.getD i da) (bs.getD i db) := by
  induction as generalizing bs i with
  | nil => simp at ha
  | cons a as ih =>
    cases bs with
    | nil => simp at hb
    | cons b bs =>
      cases i with
      | zero => simp
      | succ n =>
        simp only [List.zipWith_cons_cons, List.getD_cons_succ]
        exact ih bs n (by simpa using Nat.lt_of_succ_lt_succ ha)
          (by simpa using Nat.lt_of_succ_lt_succ hb)

theorem getD_range_map (f : ℕ → α) (n i : ℕ) (d : α) (h : i < n) :
    ((List.range n).map f).getD i d = f i := by
  rw [getD_map_of_lt f (List.range n) i 0 d (by simpa using h)]
  congr 1
  exact List.getD_eq_getElem (List.range n) 0 (by simpa using h) |>.trans (by simp)

theorem getD_replicate (a d : α) (n i : ℕ) (h : i < n) :
    (List.replicate n a).getD i d = a := by
  induction n generalizing i with
  | zero => omega
  | succ m ih =>
    cases i with
    | zero => simp [List.replicate_succ]
    | succ k => simpa [List.replicate_succ] using ih k (by omega)

theorem kde_append (a b samples : List (List ℝ)) (std : List ℝ) :
    kde (a ++ b) samples std = kde a samples std ++ kde b samples std := by
  simp [kde]

theorem blockKDEGo_eq_kde (samples : List (List ℝ)) (std : List ℝ) :
    ∀ (N b : ℕ) (e : List (List ℝ)), e.length ≤ N →
      ∀ r, blockKDEGo samples std b e = some r → r = kde e samples std := by
  intro N
  induction N with
  | zero =>
    intro b e he r h
    have he2 : e = [] := List.length_eq_zero.mp (Nat.le_zero.mp he)
    subst he2
    cases b with
    | zero => simp [blockKDEGo] at h; simp [← h, kde]
    | succ b => simp [blockKDEGo] at h; simp [← h, kde]
  | succ N ih =>
    intro b e he r h
    cases e with
    | nil =>
      cases b with
      | zero => simp [blockKDEGo] at h; simp [← h, kde]
      | succ b => simp [blockKDEGo] at h; simp [← h, kde]
    | cons x xs =>
      cases b with
      | zero => simp [blockKDEGo] at h
      | succ b =>
        have he2 : xs.length + 1 ≤ N + 1 := by simpa using he
        unfold blockKDEGo at h
        split at h
        · simp at h
        · rename_i rest hrec
          dsimp only at h
          split at h
          · exact absurd h (by simp)
          · simp only [Option.some.injEq] at h
            have hlen : ((x :: xs).drop (b + 1)).length ≤ N := by
              simp only [List.length_drop, List.length_cons]
              omega
            have hr2 := ih (b + 1) _ hlen rest hrec
            rw [← h, hr2, ← kde_append, List.take_append_drop]

theorem blockKDEGo_isSome_of (samples : List (List ℝ)) (std : List ℝ) :
    ∀ (N b : ℕ) (e : List (List ℝ)), e.length ≤ N → 2 ≤ b → e.length % b ≠ 1 →
      (blockKDEGo samples std b e).isSome = true := by
  intro N
  induction N with
  | zero =>
    intro b e he hb hr
    have he2 : e = [] := List.length_eq_zero.mp (Nat.le_zero.mp he)
    subst he2
    cases b with
    | zero => omega
    | succ b => simp [blockKDEGo]
  | succ N ih =>
    intro b e he hb hr
    cases e with
    | nil =>
      cases b with
      | zero => omega
      | succ b => simp [blockKDEGo]
    | cons x xs =>
      cases b with
      | zero => omega
      | succ b =>
        have he2 : xs.length + 1 ≤ N + 1 := by simpa using he
        unfold blockKDEGo
        dsimp only
        rcases lt_or_ge (xs.length + 1) (b + 1) with hlt | hge
        · have hmod : (xs.length + 1) % (b + 1) = xs.length + 1 := Nat.mod_eq_of_lt hlt
          have hne1 : xs.length + 1 ≠ 1 := by
            intro hbad
            apply hr
            simpa [hbad] using hmod.trans hbad
          have hc : ¬ ((x :: xs).take (b + 1)).length = 1 := by
            simp only [List.length_take, List.length_cons]
            omega
          rw [if_neg hc]
          have hdnil : (x :: xs).drop (b + 1) = [] := by
            apply List.drop_eq_nil_of_le
            simpa using Nat.le_of_lt hlt
          rw [hdnil]
          have hsome := ih (b + 1) [] (by simp) hb (by simp)
          obtain ⟨rest, hrest⟩ := Option.isSome_iff_exists.mp hsome
          rw [hrest]
          rfl
        · have hc : ¬ ((x :: xs).take (b + 1)).length = 1 := by
            simp only [List.length_take, List.length_cons]
            omega
          rw [if_neg hc]
          have hmod : ((x :: xs).drop (b + 1)).length % (b + 1) ≠ 1 := by
            rw [List.length_drop]
            intro hbad
            apply hr
            rw [Nat.mod_eq_sub_mod (by simpa using hge)]
            simpa using hbad
          have hdlen : ((x :: xs).drop (b + 1)).length ≤ N := by
            simp only [List.length_drop, List.length_cons]
            omega
          have hsome := ih (b + 1) _ hdlen hb hmod
          obtain ⟨rest, hrest⟩ := Option.isSome_iff_exists.mp hsome
          rw [hrest]
          rfl

theorem block_kde_eq_kde (eval_points samples : List (List ℝ)) (std : List ℝ) (b : ℕ)
    (hb : 2 ≤ b) (hr : eval_points.length % b ≠ 1) :
    block_kde eval_points samples std b = some (kde eval_points samples std) := by
  have hsome := blockKDEGo_isSome_of samples std eval_points.length b eval_points
    le_rfl hb hr
  obtain ⟨r, hrr⟩ := Option.isSome_iff_exists.mp hsome
  have := blockKDEGo_eq_kde samples std eval_points.length b eval_points le_rfl r hrr
  rw [block_kde, hrr, this]

theorem kde_length (eval_points samples : List (List ℝ)) (std : List ℝ) :
    (kde eval_points samples std).length = eval_points.length := by
  simp [kde]

theorem kde_mem_isSome (eval_points samples : List (List ℝ)) (std : List ℝ)
    (hs : samples ≠ []) : ∀ x ∈ kde eval_points samples std, x.isSome = true := by
  intro x hx
  simp only [kde, List.mem_map] at hx
  obtain ⟨ep, _, hxe⟩ := hx
  rw [← hxe]
  simp [List.length_eq_zero, hs]

theorem exists_of_mem_zipWith (f : α → β → γ) (as : List α) (bs : List β) (x : γ)
    (hx : x ∈ List.zipWith f as bs) : ∃ a ∈ as, ∃ b ∈ bs, x = f a b := by
  induction as generalizing bs with
  | nil => simp at hx
  | cons a as ih =>
    cases bs with
    | nil => simp at hx
    | cons b bs =>
      simp only [List.zipWith_cons_cons, List.mem_cons] at hx
      rcases hx with h | h
      · exact ⟨a, by simp, b, by simp, h⟩
      · obtain ⟨a2, ha2, b2, hb2, hfx⟩ := ih bs h
        exact ⟨a2, by simp [ha2], b2, by simp [hb2], hfx⟩

theorem maskSet_length (base : List F) (mask : List Bool) (vals : List F) :
    (maskSet base mask vals).length = base.length := by
  induction base generalizing mask vals with
  | nil => simp [maskSet]
  | cons b bs ih =>
    cases mask with
    | nil => simp [maskSet]
    | cons m ms =>
      cases m with
      | true => simp [maskSet, ih]
      | false => simp [maskSet, ih]

theorem maskSet_getD_of_false (base : List F) (mask : List Bool) (vals : List F) (i : ℕ) (d : F)
    (hi : i < base.length) (hm : mask.getD i false = false) :
    (maskSet base mask vals).getD i d = base.getD i d := by
  induction base generalizing mask vals i with
  | nil => simp at hi
  | cons b bs ih =>
    cases mask with
    | nil => simp [maskSet]
    | cons m ms =>
      cases i with
      | zero =>
        cases m with
        | true => simp at hm
        | false => simp [maskSet]
      | succ n =>
        have hn : n < bs.length := by simpa using Nat.lt_of_succ_lt_succ hi
        have hm2 : ms.getD n false = false := by simpa using hm
        cases m with
        | true => simpa [maskSet] using ih ms vals.tail n hn hm2
        | false => simpa [maskSet] using ih ms vals n hn hm2

theorem maskSet_getD_of_true_mem (base : List F) (mask : List Bool) (vals : List F) (i : ℕ)
    (d : F) (hi : i < base.length) (hm : mask.getD i false = true)
    (hlen : mask.length = base.length) (hcount : mask.count true ≤ vals.length) :
    (maskSet base mask vals).getD i d ∈ vals := by
  induction base generalizing mask vals i with
  | nil => simp at hi
  | cons b bs ih =>
    cases mask with
    | nil => simp at hlen
    | cons m ms =>
      cases i with
      | zero =>
        cases m with
        | false => simp at hm
        | true =>
          have hv : vals ≠ [] := by
            intro hnil
            rw [hnil] at hcount
            simp [List.count_cons] at hcount
          cases vals with
          | nil => exact absurd rfl hv
          | cons v vs => simp [maskSet]
      | succ n =>
        have hn : n < bs.length := by simpa using Nat.lt_of_succ_lt_succ hi
        have hm2 : ms.getD n false = true := by simpa using hm
        have hlen2 : ms.length = bs.length := by simpa using hlen
        cases m with
        | true =>
          have hv : vals ≠ [] := by
            intro hnil
            rw [hnil] at hcount
            simp [List.count_cons] at hcount
          have hcount2 : ms.count true ≤ vals.tail.length := by
            cases vals with
            | nil => exact absurd rfl hv
            | cons v vs => simp [List.count_cons] at hcount ⊢; omega
          have hmem := ih ms vals.tail n hn hm2 hlen2 hcount2
          simp only [maskSet, List.getD_cons_succ]
          exact List.mem_of_mem_tail hmem
        | false =>
          have hcount2 : ms.count true ≤ vals.length := by
            simp [List.count_cons] at hcount
            omega
          simpa [maskSet] using ih ms vals n hn hm2 hlen2 hcount2

theorem gaussian_pdf_pos (x m s : ℝ) (hs : 0 < s) : 0 < gaussian_pdf x m s := by
  unfold gaussian_pdf
  exact div_pos (Real.exp_pos _) (mul_pos hs (Real.sqrt_pos.mpr (by positivity)))

theorem optTraverse_length (f : α → Option β) (xs : List α) (ys : List β)
    (h : optTraverse f xs = some ys) : ys.length = xs.length := by
  induction xs generalizing ys with
  | nil =>
    simp only [optTraverse, Option.some.injEq] at h
    simp [← h]
  | cons x xs ih =>
    unfold optTraverse at h
    cases hfx : f x with
    | none => rw [hfx] at h; simp at h
    | some y =>
      rw [hfx] at h
      cases hrec : optTraverse f xs with
      | none => rw [hrec] at h; simp at h
      | some ys2 =>
        rw [hrec] at h
        simp only [Option.some.injEq] at h
        rw [← h]
        simp [ih ys2 hrec]

theorem optTraverse_getD (f : α → Option β) (xs : List α) (ys : List β) (i : ℕ)
    (da : α) (db : β) (h : optTraverse f xs = some ys) (hi : i < xs.length) :
    f (xs.getD i da) = some (ys.getD i db) := by
  induction xs generalizing ys i with
  | nil => simp at hi
  | cons x xs ih =>
    unfold optTraverse at h
    cases hfx : f x with
    | none => rw [hfx] at h; simp at h
    | some y =>
      rw [hfx] at h
      cases hrec : optTraverse f xs with
      | none => rw [hrec] at h; simp at h
      | some ys2 =>
        rw [hrec] at h
        simp only [Option.some.injEq] at h
        rw [← h]
        cases i with
        | zero => simpa using hfx
        | succ n =>
          simp only [List.getD_cons_succ]
          exact ih ys2 n hrec (by simpa using Nat.lt_of_succ_lt_succ hi)

theorem foldl_fadd_isSome (l : List F) (init : F) (hinit : init.isSome = true)
    (hl : ∀ x ∈ l, x.isSome = true) : (l.foldl fadd init).isSome = true := by
  induction l generalizing init with
  | nil => simpa using hinit
  | cons x xs ih =>
    simp only [List.foldl_cons]
    apply ih
    · obtain ⟨a, ha⟩ := Option.isSome_iff_exists.mp hinit
      obtain ⟨b, hb⟩ := Option.isSome_iff_exists.mp (hl x (by simp))
      simp [ha, hb, fadd]
    · intro y hy
      exact hl y (by simp [hy])

theorem fdot_isSome (row : List F) (c : List ℝ) (hrow : ∀ x ∈ row, x.isSome = true) :
    (fdot row c).isSome = true := by
  apply foldl_fadd_isSome _ _ (by simp)
  intro x hx
  obtain ⟨a, _, b, _, hab⟩ := exists_of_mem_zipWith _ _ _ _ hx
  obtain ⟨av, hav⟩ := Option.isSome_iff_exists.mp (hrow a (by assumption))
  simp [hab, hav, fmul]

theorem maskSelect_count_eq (counts : List ℕ) (xs : List α) :
    maskSelect (counts.map (fun c => c != 0)) xs =
      ((xs.zip counts).filter (fun p => p.2 != 0)).map Prod.fst := by
  induction counts generalizing xs with
  | nil => simp [maskSelect]
  | cons c cs ih =>
    cases xs with
    | nil => simp [maskSelect]
    | cons x xs =>
      by_cases hc : c = 0
      · simp [maskSelect, List.zip_cons_cons, hc] at ih ⊢
        exact ih xs
      · simp [maskSelect, List.zip_cons_cons, hc] at ih ⊢
        exact ih xs

theorem KDEModel_predict_eq (m : KDEModel) (eval_points : List (List ℝ)) (md : List F)
    (h : m.predict eval_points = some md) :
    md = kde eval_points m.samples_ (List.replicate (ncols eval_points) m.std) := by
  unfold KDEModel.predict block_kde at h
  exact blockKDEGo_eq_kde _ _ eval_points.length _ eval_points le_rfl md h

theorem kdeNeuronFit_inv (position interiorCenters : List (List ℝ)) (occupancy : List F)
    (position_std : ℝ) (block_size : ℕ) (is_track_interior : List Bool)
    (spikes : List (List ℕ)) (n : ℕ) (mm : KDEModel) (pf : List F)
    (h : kdeNeuronFit position interiorCenters occupancy position_std block_size
      is_track_interior spikes n = some (mm, pf)) :
    mm = ⟨position_std, some block_size,
      maskSelect ((column n spikes 0).map (fun c => c != 0)) position⟩ ∧
    ∃ md, KDEModel.predict mm interiorCenters = some md ∧
      pf = maskSet (List.replicate is_track_interior.length (some 0)) is_track_interior
        (List.zipWith (fun mdv occv => fclipMin EPS (fmul
          (if spikes.length = 0 then none
           else some (((column n spikes 0).sum : ℝ) / (spikes.length : ℝ)))
          (fwhere (fgt0 occv) (fdiv mdv occv) (some EPS)))) md occupancy) := by
  unfold kdeNeuronFit at h
  dsimp only at h
  cases hmd : KDEModel.predict
      ⟨position_std, some block_size,
        maskSelect ((column n spikes 0).map (fun c => c != 0)) position⟩
      interiorCenters with
  | none => rw [hmd] at h; simp at h
  | some md =>
    rw [hmd] at h
    simp only [Option.some.injEq, Prod.mk.injEq] at h
    obtain ⟨hmm, hpf⟩ := h
    refine ⟨hmm.symm, md, ?_, hpf.symm⟩
    rw [hmm] at hmd
    exact hmd

theorem fit_kde_inv (position : List (List ℝ)) (spikes : List (List ℕ))
    (place_bin_centers : List (List ℝ)) (is_track_interior : List Bool)
    (position_std : ℝ) (block_size : ℕ) (m : KDEEncodingModel)
    (h : fit_sorted_spikes_kde_encoding_model position spikes place_bin_centers
      is_track_interior position_std block_size = some m) :
    ∃ occupancy results,
      KDEModel.predict ⟨position_std, some block_size, position⟩
          (maskSelect is_track_interior place_bin_centers) = some occupancy ∧
      optTraverse (kdeNeuronFit position (maskSelect is_track_interior place_bin_centers)
          occupancy position_std block_size is_track_interior spikes)
          (List.range (ncols spikes)) = some results ∧
      m.marginal_models = results.map Prod.fst ∧
      m.place_fields = results.map Prod.snd ∧
      m.no_spike_part_log_likelihood = (List.range is_track_interior.length).map (fun b =>
        fsum ((results.map Prod.snd).map (fun pf => pf.getD b (some 0)))) ∧
      m.is_track_interior = is_track_interior ∧
      m.occupancy = occupancy := by
  unfold fit_sorted_spikes_kde_encoding_model at h
  dsimp only at h
  cases hocc : KDEModel.predict ⟨position_std, some block_size, position⟩
      (maskSelect is_track_interior place_bin_centers) with
  | none => rw [hocc] at h; simp at h
  | some occupancy =>
    rw [hocc] at h
    dsimp only at h
    by_cases hn : ncols spikes ≤ 1
    · rw [if_pos hn] at h; simp at h
    · rw [if_neg hn] at h
      cases hres : optTraverse (kdeNeuronFit position
          (maskSelect is_track_interior place_bin_centers) occupancy position_std block_size
          is_track_interior spikes) (List.range (ncols spikes)) with
      | none => rw [hres] at h; simp at h
      | some results =>
        rw [hres] at h
        dsimp only at h
        simp only [Option.some.injEq] at h
        refine ⟨occupancy, results, rfl, hres, ?_, ?_, ?_, ?_, ?_⟩ <;> rw [← h]

theorem list_sum_eq_finset (l : List ℝ) :
    l.sum = ∑ i ∈ Finset.range l.length, l.getD i 0 := by
  induction l with
  | nil => simp
  | cons x xs ih =>
    simp only [List.sum_cons, List.length_cons]
    rw [Finset.sum_range_succ' (fun i => (x :: xs).getD i 0) xs.length]
    simp only [List.getD_cons_succ, List.getD_cons_zero]
    rw [← ih]
    ring

theorem zipWith_sum_eq (f : α → β → ℝ) (da : α) (db : β) :
    ∀ (T : ℕ) (as : List α) (bs : List β), as.length = T → bs.length = T →
      (List.zipWith f as bs).sum = ∑ t ∈ Finset.range T, f (as.getD t da) (bs.getD t db) := by
  intro T
  induction T with
  | zero =>
    intro as bs ha hb
    rw [List.length_eq_zero.mp ha, List.length_eq_zero.mp hb]
    simp
  | succ T ih =>
    intro as bs ha hb
    cases as with
    | nil => simp at ha
    | cons a as2 =>
      cases bs with
      | nil => simp at hb
      | cons b bs2 =>
        simp only [List.zipWith_cons_cons, List.sum_cons]
        rw [Finset.sum_range_succ' (fun t => f ((a :: as2).getD t da) ((b :: bs2).getD t db)) T]
        simp only [List.getD_cons_succ, List.getD_cons_zero]
        rw [← ih as2 bs2 (by simpa using ha) (by simpa using hb)]
        ring

theorem zipWith3_sum_eq (f : α → β → γ → ℝ) (da : α) (db : β) (dc : γ) :
    ∀ (T : ℕ) (as : List α) (bs : List β) (cs : List γ),
      as.length = T → bs.length = T → cs.length = T →
      (zipWith3 f as bs cs).sum =
        ∑ t ∈ Finset.range T, f (as.getD t da) (bs.getD t db) (cs.getD t dc) := by
  intro T
  induction T with
  | zero =>
    intro as bs cs ha hb hc
    rw [List.length_eq_zero.mp ha, List.length_eq_zero.mp hb, List.length_eq_zero.mp hc]
    simp [zipWith3]
  | succ T ih =>
    intro as bs cs ha hb hc
    cases as with
    | nil => simp at ha
    | cons a as2 =>
      cases bs with
      | nil => simp at hb
      | cons b bs2 =>
        cases cs with
        | nil => simp at hc
        | cons c cs2 =>
          simp only [zipWith3, List.sum_cons]
          rw [Finset.sum_range_succ'
            (fun t => f ((a :: as2).getD t da) ((b :: bs2).getD t db) ((c :: cs2).getD t dc)) T]
          simp only [List.getD_cons_succ, List.getD_cons_zero]
          rw [← ih as2 bs2 cs2 (by simpa using ha) (by simpa using hb) (by simpa using hc)]
          ring

theorem zipWith3_length_eq (f : α → β → γ → δ) :
    ∀ (T : ℕ) (as : List α) (bs : List β) (cs : List γ),
      as.length = T → bs.length = T → cs.length = T →
      (zipWith3 f as bs cs).length = T := by
  intro T
  induction T with
  | zero =>
    intro as bs cs ha hb hc
    rw [List.length_eq_zero.mp ha, List.length_eq_zero.mp hb, List.length_eq_zero.mp hc]
    simp [zipWith3]
  | succ T ih =>
    intro as bs cs ha hb hc
    cases as with
    | nil => simp at ha
    | cons a as2 =>
      cases bs with
      | nil => simp at hb
      | cons b bs2 =>
        cases cs with
        | nil => simp at hc
        | cons c cs2 =>
          simp only [zipWith3, List.length_cons]
          rw [ih as2 bs2 cs2 (by simpa using ha) (by simpa using hb) (by simpa using hc)]

theorem drop_one_getD (c : List ℝ) (i : ℕ) (d : ℝ) :
    (c.drop 1).getD i d = c.getD (i + 1) d := by
  cases c <;> simp

theorem drop_one_sq_sum (c : List ℝ) (K : ℕ) (hc : c.length = K) :
    ((c.drop 1).map (fun x => x ^ 2)).sum = ∑ j ∈ Finset.Ico 1 K, c.getD j 0 ^ 2 := by
  rw [list_sum_eq_finset]
  have hlen : ((c.drop 1).map (fun x => x ^ 2)).length = K - 1 := by simp [hc]
  rw [hlen, Finset.sum_Ico_eq_sum_range]
  apply Finset.sum_congr rfl
  intro i hi
  simp only [Finset.mem_range] at hi
  have hilt : i < (c.drop 1).length := by simp [hc]; omega
  rw [getD_map_of_lt (fun x => x ^ 2) (c.drop 1) i 0 0 hilt, drop_one_getD]
  rw [Nat.add_comm 1 i]

/-- C2: the claim fails on the code.  With block size 1 (more generally,
whenever a chunk has length exactly 1) `block_kde` raises a rank-mismatch
error in `jax.lax.dynamic_update_slice` — the chunk result is squeezed to a
rank-0 array — instead of returning the unblocked `kde` values, which are
well defined on the same input (here two evaluation points). -/
theorem C2_block_kde_unit_chunk_rank_error :
    block_kde [[0], [1]] [[0]] [1] 1 = none ∧ (kde [[0], [1]] [[0]] [1]).length = 2 := by
  constructor
  · simp [block_kde, blockKDEGo]
  · simp [kde]

/-- C3: the claim fails on the code.  For a neuron with an all-zero spike
column (second neuron below) the fitter completes, but its place field is NaN
at every interior bin with positive occupancy — the mean over the empty
sample set is `0/0 = NaN` and it propagates through `where`, the product with
the zero mean rate, and `clip` — rather than the all-epsilon field the claim
requires. -/
theorem C3_zero_spike_neuron_yields_nan_place_field :
    (fit_sorted_spikes_kde_encoding_model [[0], [1]] [[1, 0], [0, 0]] [[0], [1]]
        [true, true] 5 100).map (fun m => m.place_fields.getD 1 []) = some [none, none] ∧
    (none : F) ≠ some EPS := by
  constructor
  · have h5 : (0:ℝ) < 5 := by norm_num
    have ha : (0:ℝ) < (gaussian_pdf 0 0 5 + gaussian_pdf 0 1 5) / 2 := by
      have h1 := gaussian_pdf_pos 0 0 5 h5
      have h2 := gaussian_pdf_pos 0 1 5 h5
      linarith
    have hb : (0:ℝ) < (gaussian_pdf 1 0 5 + gaussian_pdf 1 1 5) / 2 := by
      have h1 := gaussian_pdf_pos 1 0 5 h5
      have h2 := gaussian_pdf_pos 1 1 5 h5
      linarith
    simp [fit_sorted_spikes_kde_encoding_model, kdeNeuronFit, KDEModel.predict, block_kde,
      blockKDEGo, kde, kernelProduct, maskSelect, column, ncols, optTraverse, maskSet,
      List.range_succ, fgt0, fwhere, fdiv, fmul, fclipMin, decide_eq_true_eq, ha, hb]
  · simp

/-- C1 counterexample: the claim fails on the code for the KDE backend.  On a
track whose single bin is exterior (`is_track_interior = [false]`), the fitted
KDE place field entry is exactly `0`, not the epsilon floor: the field is
initialised with `jnp.zeros` and only interior bins are ever written. -/
theorem C1_counterexample_kde_exterior_zero :
    (fit_sorted_spikes_kde_encoding_model [[0]] [[1, 1]] [[0]] [false] 5 100).map
        (fun m => m.place_fields.getD 0 []) = some [some 0] ∧ (0 : ℝ) ≠ EPS := by
  constructor
  · simp [fit_sorted_spikes_kde_encoding_model, kdeNeuronFit, KDEModel.predict, block_kde,
      blockKDEGo, maskSelect, column, ncols, optTraverse, maskSet, List.range_succ]
  · norm_num [EPS]

/-- C4 counterexample: the claim fails on the code.  Two optimizers that
return the same candidate `x` but opposite `success` flags give identical
`fit_poisson_regression` outputs: the function returns only `res.x`, so the
convergence status is not retrievable from anything it exposes to the
caller. -/
theorem C4_counterexample_success_not_exposed :
    fit_poisson_regression (fun _ x0 => ⟨x0, true⟩) [[1]] [1] [1] 0 =
      fit_poisson_regression (fun _ x0 => ⟨x0, false⟩) [[1]] [1] [1] 0 ∧
    (⟨[0], true⟩ : OptimizeResult).success ≠ (⟨[0], false⟩ : OptimizeResult).success := by
  exact ⟨rfl, by simp⟩

/-- C4 (amended): `fit_poisson_regression` returns the optimizer's candidate
`res.x` — the best available coefficient estimate — even when the optimizer
reports non-convergence (`success = false`); the convergence status itself is
discarded rather than exposed. -/
theorem C4_amended_returns_best_estimate :
    ∀ (minimize : (List ℝ → ℝ) → List ℝ → OptimizeResult)
      (design_matrix : List (List ℝ)) (spikes : List ℕ) (weights : List ℝ)
      (l2_penalty : ℝ),
      (minimize (neglogp design_matrix spikes weights l2_penalty)
        (initial_condition design_matrix spikes weights)).success = false →
      fit_poisson_regression minimize design_matrix spikes weights l2_penalty =
        (minimize (neglogp design_matrix spikes weights l2_penalty)
          (initial_condition design_matrix spikes weights)).x := by
  intro minimize design_matrix spikes weights l2_penalty hfail
  rfl

/-- C4 witness: a concrete non-converged optimizer run through
`fit_poisson_regression` returns exactly its candidate `x`. -/
theorem C4_amended_witness :
    ((fun (_ : List ℝ → ℝ) (_ : List ℝ) => (⟨[5], false⟩ : OptimizeResult))
        (neglogp [] [] [] 0) (initial_condition [] [] [])).success = false ∧
    fit_poisson_regression (fun _ _ => ⟨[5], false⟩) [] [] [] 0 =
      ((fun (_ : List ℝ → ℝ) (_ : List ℝ) => (⟨[5], false⟩ : OptimizeResult))
        (neglogp [] [] [] 0) (initial_condition [] [] [])).x := by
  exact ⟨rfl, C4_amended_returns_best_estimate (fun _ _ => ⟨[5], false⟩) [] [] [] 0 rfl⟩

/-- C5: confirmed.  In non-local prediction, at every time step `t` and every
bin `b` outside `is_track_interior`, the GLM predictor's output entry is NaN
and the KDE predictor's output entry is `log EPS`. -/
theorem C5_nonlocal_exterior_invalid_markers :
    (∀ (spikes : List (List ℕ)) (place_fields : List (List F))
       (is_track_interior : List Bool) (t b : ℕ),
       t < spikes.length → b < ncols place_fields →
       is_track_interior.getD b false = false →
       ((predict_sorted_spikes_glm_jax_log_likelihood_nonlocal spikes place_fields
           is_track_interior).getD t []).getD b (some 0) = none) ∧
    (∀ (spikes : List (List ℕ)) (place_fields : List (List F))
       (no_spike_part_log_likelihood : List F) (is_track_interior : List Bool) (t b : ℕ),
       t < spikes.length → b < ncols place_fields →
       is_track_interior.getD b false = false →
       ((predict_sorted_spikes_kde_log_likelihood_nonlocal spikes place_fields
           no_spike_part_log_likelihood is_track_interior).getD t []).getD b (some 0) =
         some (Real.log EPS)) := by
  constructor
  · intro spikes place_fields is_track_interior t b ht hb hm
    unfold predict_sorted_spikes_glm_jax_log_likelihood_nonlocal
    rw [getD_map_of_lt _ spikes t [] [] ht, getD_range_map _ _ b _ hb,
      if_neg (by rw [hm]; exact Bool.false_ne_true)]
  · intro spikes place_fields nsp is_track_interior t b ht hb hm
    unfold predict_sorted_spikes_kde_log_likelihood_nonlocal
    rw [getD_map_of_lt _ spikes t [] [] ht, getD_range_map _ _ b _ hb,
      if_neg (by rw [hm]; exact Bool.false_ne_true)]

/-- C5 witness: a concrete non-local prediction, for each backend, with a
single exterior bin: the GLM entry is NaN and the KDE entry is `log EPS`. -/
theorem C5_nonlocal_exterior_invalid_markers_witness :
    (0 < [[(0:ℕ)]].length ∧ 0 < ncols [[(some (1:ℝ) : F)]] ∧
      ([false].getD 0 false = false) ∧
      ((predict_sorted_spikes_glm_jax_log_likelihood_nonlocal [[0]] [[some 1]]
          [false]).getD 0 []).getD 0 (some 0) = none) ∧
    (((predict_sorted_spikes_kde_log_likelihood_nonlocal [[0]] [[some 1]] [some 0]
        [false]).getD 0 []).getD 0 (some 0) = some (Real.log EPS)) := by
  refine ⟨⟨by norm_num, by norm_num [ncols], by simp, ?_⟩, ?_⟩
  · exact C5_nonlocal_exterior_invalid_markers.1 [[0]] [[some 1]] [false] 0 0
      (by norm_num) (by norm_num [ncols]) (by simp)
  · exact C5_nonlocal_exterior_invalid_markers.2 [[0]] [[some 1]] [some 0] [false] 0 0
      (by norm_num) (by norm_num [ncols]) (by simp)

/-- C6: confirmed.  Any position row containing a NaN coordinate yields,
through the predict-transform, a design-matrix row that is entirely NaN (and
the transform is total: it never fails on such rows). -/
theorem C6_nan_row_propagates_to_nan_output_row :
    ∀ (design_info : List ℝ → List ℝ) (position : List (List F)) (i : ℕ),
      i < position.length →
      (position.getD i []).any Option.isNone = true →
      ((make_spline_predict_matrix design_info position).1.getD i []).all
        Option.isNone = true := by
  intro design_info position i hi hnan
  unfold make_spline_predict_matrix
  have hlen2 : (List.zipWith
      (fun b row => if b then List.map (fun _ => (some (0:ℝ) : F)) row else row)
      (position.map (fun row => row.any Option.isNone)) position).length = position.length := by
    simp
  rw [getD_zipWith_of_lt _ _ _ i false [] [] (by simpa using hi) (by simp [hlen2, hi])]
  rw [getD_map_of_lt _ position i [] false hi, hnan]
  simp

/-- C6 witness: a concrete position with one NaN row produces an all-NaN
design-matrix row. -/
theorem C6_nan_row_propagates_witness :
    0 < [[(none : F)]].length ∧ ([[(none : F)]].getD 0 []).any Option.isNone = true ∧
    ((make_spline_predict_matrix (fun r => 0 :: r) [[none]]).1.getD 0 []).all
      Option.isNone = true := by
  refine ⟨by norm_num, by simp, ?_⟩
  exact C6_nan_row_propagates_to_nan_output_row (fun r => 0 :: r) [[none]] 0
    (by norm_num) (by simp)

/-- C10: confirmed.  After a call to `make_spline_predict_matrix`, the
caller's position buffer has every row that contained a NaN coordinate
overwritten entirely with `0.0`, and every other row unchanged (the function
writes through the argument array: `atleast_2d` returns the argument itself
for 2-D input). -/
theorem C10_position_rows_overwritten_in_place :
    ∀ (design_info : List ℝ → List ℝ) (position : List (List F)) (i : ℕ),
      i < position.length →
      (make_spline_predict_matrix design_info position).2.getD i [] =
        (if (position.getD i []).any Option.isNone
         then (position.getD i []).map (fun _ => (some (0:ℝ) : F))
         else position.getD i []) := by
  intro design_info position i hi
  unfold make_spline_predict_matrix
  rw [getD_zipWith_of_lt _ _ _ i false [] [] (by simpa using hi) hi]
  rw [getD_map_of_lt _ position i [] false hi]

/-- C10 witness: with one NaN row and one clean row, the returned buffer has
the NaN row overwritten with zeros and the clean row untouched. -/
theorem C10_position_rows_overwritten_witness :
    0 < [[(none : F), some 1], [some 2]].length ∧
    1 < [[(none : F), some 1], [some 2]].length ∧
    (make_spline_predict_matrix (fun r => r) [[none, some 1], [some 2]]).2.getD 0 [] =
      (if ([[(none : F), some 1], [some 2]].getD 0 []).any Option.isNone
       then ([[(none : F), some 1], [some 2]].getD 0 []).map (fun _ => (some (0:ℝ) : F))
       else [[(none : F), some 1], [some 2]].getD 0 []) ∧
    (make_spline_predict_matrix (fun r => r) [[none, some 1], [some 2]]).2.getD 1 [] =
      (if ([[(none : F), some 1], [some 2]].getD 1 []).any Option.isNone
       then ([[(none : F), some 1], [some 2]].getD 1 []).map (fun _ => (some (0:ℝ) : F))
       else [[(none : F), some 1], [some 2]].getD 1 []) := by
  refine ⟨by norm_num, by norm_num, ?_, ?_⟩
  · exact C10_position_rows_overwritten_in_place (fun r => r) _ 0 (by norm_num)
  · exact C10_position_rows_overwritten_in_place (fun r => r) _ 1 (by norm_num)

theorem getD_range (n i d : ℕ) (h : i < n) : (List.range n).getD i d = i := by
  rw [List.getD_eq_getElem (List.range n) d (by simpa using h)]
  simp

/-- C7: confirmed.  The fitter retains
`no_spike_part_log_likelihood = jnp.sum(place_fields, axis=0)` — at every bin,
the sum over neurons of the place-field values there — and the non-local
predictor subtracts exactly this retained term once per bin, at every time
step, from the per-neuron log-likelihood accumulated over neurons. -/
theorem C7_no_spike_term_retained_and_subtracted :
    (∀ (position : List (List ℝ)) (spikes : List (List ℕ))
       (place_bin_centers : List (List ℝ)) (is_track_interior : List Bool)
       (position_std : ℝ) (block_size : ℕ) (m : KDEEncodingModel) (b : ℕ),
       fit_sorted_spikes_kde_encoding_model position spikes place_bin_centers
         is_track_interior position_std block_size = some m →
       b < is_track_interior.length →
       m.no_spike_part_log_likelihood.getD b (some 0) =
         fsum (m.place_fields.map (fun pf => pf.getD b (some 0)))) ∧
    (∀ (spikes : List (List ℕ)) (place_fields : List (List F))
       (no_spike_part_log_likelihood : List F) (is_track_interior : List Bool) (t b : ℕ),
       t < spikes.length → b < ncols place_fields →
       is_track_interior.getD b false = true →
       ((predict_sorted_spikes_kde_log_likelihood_nonlocal spikes place_fields
           no_spike_part_log_likelihood is_track_interior).getD t []).getD b (some 0) =
         fsub ((List.range (min (ncols spikes) place_fields.length)).foldl
             (fun acc n => fadd acc (fxlogy ((spikes.getD t []).getD n 0)
               ((place_fields.getD n []).getD b (some 0)))) (some 0))
           (no_spike_part_log_likelihood.getD b (some 0))) := by
  constructor
  · intro position spikes centers interior std bs m b hfit hb
    obtain ⟨occupancy, results, hocc, hres, hmm, hpf, hnsp, hint, hoccm⟩ :=
      fit_kde_inv position spikes centers interior std bs m hfit
    rw [hnsp, getD_range_map _ _ b (some 0) hb, hpf]
  · intro spikes place_fields nsp is_track_interior t b ht hb hm
    unfold predict_sorted_spikes_kde_log_likelihood_nonlocal
    rw [getD_map_of_lt _ spikes t [] [] ht, getD_range_map _ _ b _ hb, if_pos hm]

/-- C9: confirmed.  In the KDE fitter, neuron `n`'s marginal KDE model stores
exactly the position samples at time steps where that neuron's spike count is
nonzero — the boolean `astype(bool)` selection, one sample per selected time
step regardless of the count's magnitude. -/
theorem C9_marginal_models_fit_on_spike_coincident_positions :
    ∀ (position : List (List ℝ)) (spikes : List (List ℕ))
      (place_bin_centers : List (List ℝ)) (is_track_interior : List Bool)
      (position_std : ℝ) (block_size : ℕ) (m : KDEEncodingModel) (n : ℕ),
      fit_sorted_spikes_kde_encoding_model position spikes place_bin_centers
        is_track_interior position_std block_size = some m →
      n < ncols spikes →
      (m.marginal_models.getD n ⟨0, none, []⟩).samples_ =
        spikeCoincidentPositions position (column n spikes 0) := by
  intro position spikes centers interior std bs m n hfit hn
  obtain ⟨occupancy, results, hocc, hres, hmm, hpf, hnsp, hint, hoccm⟩ :=
    fit_kde_inv position spikes centers interior std bs m hfit
  have hlen : results.length = ncols spikes := by
    rw [optTraverse_length _ _ _ hres]
    simp
  have hg := optTraverse_getD _ (List.range (ncols spikes)) results n 0
    ((⟨0, none, []⟩ : KDEModel), ([] : List F)) hres (by simpa using hn)
  rw [getD_range (ncols spikes) n 0 hn] at hg
  have hg2 : kdeNeuronFit position (maskSelect interior centers) occupancy std bs interior
      spikes n = some ((results.getD n (⟨0, none, []⟩, [])).1,
        (results.getD n (⟨0, none, []⟩, [])).2) := by
    rw [Prod.mk.eta]
    exact hg
  obtain ⟨hmmv, _⟩ := kdeNeuronFit_inv _ _ _ _ _ _ _ _ _ _ hg2
  rw [hmm, getD_map_of_lt Prod.fst results n (⟨0, none, []⟩, []) ⟨0, none, []⟩
    (by rw [hlen]; exact hn), hmmv]
  unfold spikeCoincidentPositions
  exact maskSelect_count_eq (column n spikes 0) position


/-- C7 witness: the retained-sum part instantiated on a concrete fitted model,
and the subtraction part instantiated on a concrete non-local prediction. -/
theorem C7_no_spike_term_witness :
    (fit_sorted_spikes_kde_encoding_model [[0]] [[1, 1]] [[0]] [false] 5 100 =
      some ⟨[⟨5, some 100, [[0]]⟩, ⟨5, some 100, [[0]]⟩], ⟨5, some 100, [[0]]⟩, [],
        [some 1, some 1], [[some 0], [some 0]], [some 0], [false]⟩) ∧
    ((⟨[⟨5, some 100, [[0]]⟩, ⟨5, some 100, [[0]]⟩], ⟨5, some 100, [[0]]⟩, [],
        [some 1, some 1], [[some 0], [some 0]], [some 0],
        [false]⟩ : KDEEncodingModel).no_spike_part_log_likelihood.getD 0 (some 0) =
      fsum ((⟨[⟨5, some 100, [[0]]⟩, ⟨5, some 100, [[0]]⟩], ⟨5, some 100, [[0]]⟩, [],
        [some 1, some 1], [[some 0], [some 0]], [some 0],
        [false]⟩ : KDEEncodingModel).place_fields.map (fun pf => pf.getD 0 (some 0)))) ∧
    (0 < [[(2:ℕ)]].length ∧ [true].getD 0 false = true ∧
      ((predict_sorted_spikes_kde_log_likelihood_nonlocal [[2]] [[some 1]] [some 0]
          [true]).getD 0 []).getD 0 (some 0) =
        fsub ((List.range (min (ncols [[(2:ℕ)]]) [[(some (1:ℝ) : F)]].length)).foldl
            (fun acc n => fadd acc (fxlogy (([[(2:ℕ)]].getD 0 []).getD n 0)
              (([[(some (1:ℝ) : F)]].getD n []).getD 0 (some 0)))) (some 0))
          ([some (0:ℝ)].getD 0 (some 0))) := by
  have hfit : fit_sorted_spikes_kde_encoding_model [[0]] [[1, 1]] [[0]] [false] 5 100 =
      some ⟨[⟨5, some 100, [[0]]⟩, ⟨5, some 100, [[0]]⟩], ⟨5, some 100, [[0]]⟩, [],
        [some 1, some 1], [[some 0], [some 0]], [some 0], [false]⟩ := by
    simp [fit_sorted_spikes_kde_encoding_model, kdeNeuronFit, KDEModel.predict, block_kde,
      blockKDEGo, maskSelect, column, ncols, optTraverse, maskSet, List.range_succ, fsum, fadd]
  refine ⟨hfit, ?_, by norm_num, by simp, ?_⟩
  · exact C7_no_spike_term_retained_and_subtracted.1 [[0]] [[1, 1]] [[0]] [false] 5 100 _ 0
      hfit (by norm_num)
  · exact C7_no_spike_term_retained_and_subtracted.2 [[2]] [[some 1]] [some 0] [true] 0 0
      (by norm_num) (by norm_num [ncols]) (by simp)

/-- C9 witness: on a concrete fitted model, neuron 0's marginal model stores
exactly the position samples at its nonzero-spike time steps. -/
theorem C9_marginal_models_witness :
    (fit_sorted_spikes_kde_encoding_model [[0]] [[1, 1]] [[0]] [false] 5 100 =
      some ⟨[⟨5, some 100, [[0]]⟩, ⟨5, some 100, [[0]]⟩], ⟨5, some 100, [[0]]⟩, [],
        [some 1, some 1], [[some 0], [some 0]], [some 0], [false]⟩) ∧
    0 < ncols [[(1:ℕ), 1]] ∧
    (((⟨[⟨5, some 100, [[0]]⟩, ⟨5, some 100, [[0]]⟩], ⟨5, some 100, [[0]]⟩, [],
        [some 1, some 1], [[some 0], [some 0]], [some 0],
        [false]⟩ : KDEEncodingModel).marginal_models.getD 0 ⟨0, none, []⟩).samples_ =
      spikeCoincidentPositions [[0]] (column 0 [[1, 1]] 0)) := by
  have hfit : fit_sorted_spikes_kde_encoding_model [[0]] [[1, 1]] [[0]] [false] 5 100 =
      some ⟨[⟨5, some 100, [[0]]⟩, ⟨5, some 100, [[0]]⟩], ⟨5, some 100, [[0]]⟩, [],
        [some 1, some 1], [[some 0], [some 0]], [some 0], [false]⟩ := by
    simp [fit_sorted_spikes_kde_encoding_model, kdeNeuronFit, KDEModel.predict, block_kde,
      blockKDEGo, maskSelect, column, ncols, optTraverse, maskSet, List.range_succ, fsum, fadd]
  refine ⟨hfit, by norm_num [ncols], ?_⟩
  exact C9_marginal_models_fit_on_spike_coincident_positions [[0]] [[1, 1]] [[0]] [false]
    5 100 _ 0 hfit (by norm_num [ncols])

/-- C8: confirmed.  The objective handed to the optimizer equals the negated
mean over samples of `weight * PoissonLogPMF(spike_count; rate)` with
`rate = exp(design_row . coefficients)` clipped below at `EPS`, plus the L2
penalty `l2_penalty * sum(coefficients[1:]^2)` excluding the intercept; the
initial point is the log of the weighted mean spike count followed by zeros;
and `fit_poisson_regression` hands exactly these two to `minimize` and
returns the result's `x`. -/
theorem C8_objective_and_initialization :
    ∀ (T K : ℕ) (design_matrix : List (List ℝ)) (spikes : List ℕ) (weights : List ℝ)
      (l2_penalty : ℝ) (c : List ℝ)
      (minimize : (List ℝ → ℝ) → List ℝ → OptimizeResult),
      design_matrix.length = T → spikes.length = T → weights.length = T →
      (∀ row ∈ design_matrix, row.length = K) → c.length = K →
      ncols design_matrix = K →
      neglogp design_matrix spikes weights l2_penalty c =
        neglogpSpec T K design_matrix spikes weights l2_penalty c ∧
      initial_condition design_matrix spikes weights =
        initial_conditionSpec T K spikes weights ∧
      fit_poisson_regression minimize design_matrix spikes weights l2_penalty =
        (minimize (neglogp design_matrix spikes weights l2_penalty)
          (initial_condition design_matrix spikes weights)).x := by
  intro T K dm s w l2 c minimize hdm hs hw hrows hc hK
  refine ⟨?_, ?_, rfl⟩
  · unfold neglogp neglogpSpec
    dsimp only
    have hcilen : (dm.map (fun row => max (Real.exp (dot row c)) EPS)).length = T := by
      simp [hdm]
    have hterms := zipWith3_sum_eq (fun (wt : ℝ) (k : ℕ) (r : ℝ) => wt * poisson_logpmf k r)
      0 0 0 T w s (dm.map (fun row => max (Real.exp (dot row c)) EPS)) hw hs hcilen
    have htermlen := zipWith3_length_eq
      (fun (wt : ℝ) (k : ℕ) (r : ℝ) => wt * poisson_logpmf k r)
      T w s (dm.map (fun row => max (Real.exp (dot row c)) EPS)) hw hs hcilen
    rw [hterms, htermlen, drop_one_sq_sum c K hc]
    have hsum : (∑ t ∈ Finset.range T, w.getD t 0 * poisson_logpmf (s.getD t 0)
          ((dm.map (fun row => max (Real.exp (dot row c)) EPS)).getD t 0)) =
        ∑ t ∈ Finset.range T, w.getD t 0 * poisson_logpmf (s.getD t 0)
          (max (Real.exp
            (∑ j ∈ Finset.range K, (dm.getD t []).getD j 0 * c.getD j 0)) EPS) := by
      apply Finset.sum_congr rfl
      intro t ht
      have htT : t < dm.length := by rw [hdm]; exact Finset.mem_range.mp ht
      rw [getD_map_of_lt (fun row => max (Real.exp (dot row c)) EPS) dm t [] 0 htT]
      have hrowlen : (dm.getD t []).length = K := by
        apply hrows
        rw [List.getD_eq_getElem dm [] htT]
        exact List.getElem_mem htT
      rw [dot, zipWith_sum_eq (fun x y => x * y) 0 0 K (dm.getD t []) c hrowlen hc]
    rw [hsum]
    ring
  · unfold initial_condition initial_conditionSpec
    rw [zipWith_sum_eq (fun (wt : ℝ) (k : ℕ) => wt * (k : ℝ)) 0 0 T w s hw hs]
    rw [list_sum_eq_finset w, hw, hK]

/-- C8 witness: the objective/initialization equality instantiated on a
concrete one-sample, one-coefficient regression problem. -/
theorem C8_objective_witness :
    ([[(1:ℝ)]].length = 1 ∧ [(1:ℕ)].length = 1 ∧ [(1:ℝ)].length = 1 ∧
      [(0:ℝ)].length = 1 ∧ ncols [[(1:ℝ)]] = 1) ∧
    (neglogp [[1]] [1] [1] 0 [0] = neglogpSpec 1 1 [[1]] [1] [1] 0 [0] ∧
     initial_condition [[1]] [1] [1] = initial_conditionSpec 1 1 [1] [1] ∧
     fit_poisson_regression (fun _ x0 => ⟨x0, true⟩) [[1]] [1] [1] 0 =
       ((fun (_ : List ℝ → ℝ) (x0 : List ℝ) => (⟨x0, true⟩ : OptimizeResult))
         (neglogp [[1]] [1] [1] 0) (initial_condition [[1]] [1] [1])).x) := by
  refine ⟨⟨by norm_num, by norm_num, by norm_num, by norm_num, by norm_num [ncols]⟩, ?_⟩
  exact C8_objective_and_initialization 1 1 [[1]] [1] [1] 0 [0] (fun _ x0 => ⟨x0, true⟩)
    (by norm_num) (by norm_num) (by norm_num) (by simp) (by norm_num) (by norm_num [ncols])

theorem make_spline_predict_matrix_row_isSome (design_info : List ℝ → List ℝ)
    (position : List (List F)) (i : ℕ) (hi : i < position.length)
    (hrow : ∀ x ∈ position.getD i [], x.isSome = true) :
    ∀ x ∈ (make_spline_predict_matrix design_info position).1.getD i [],
      x.isSome = true := by
  unfold make_spline_predict_matrix
  have hnan : (position.map (fun row => row.any Option.isNone)).getD i false = false := by
    rw [getD_map_of_lt _ position i [] false hi]
    rw [List.any_eq_false]
    intro x hx
    obtain ⟨v, hv⟩ := Option.isSome_iff_exists.mp (hrow x hx)
    simp [hv]
  have hlen2 : (List.zipWith
      (fun b row => if b then List.map (fun _ => (some (0:ℝ) : F)) row else row)
      (position.map (fun row => row.any Option.isNone)) position).length =
      position.length := by simp
  rw [getD_zipWith_of_lt _ _ _ i false [] [] (by simpa using hi) (by simp [hlen2, hi])]
  rw [hnan]
  simp only [Bool.false_eq_true, if_false]
  rw [getD_map_of_lt _ _ i [] [] (by simp [hlen2, hi])]
  intro x hx
  simp only [List.mem_map] at hx
  obtain ⟨v, _, hv⟩ := hx
  simp [← hv]

theorem glmPlaceField_getD (emission_predict_matrix : List (List F)) (coefficients : List ℝ)
    (is_track_interior : List Bool) (i : ℕ)
    (h1 : i < emission_predict_matrix.length) (h2 : i < is_track_interior.length)
    (hrow : ∀ x ∈ emission_predict_matrix.getD i [], x.isSome = true) :
    ((glmPlaceField emission_predict_matrix coefficients is_track_interior).getD i
        none).isSome = true ∧
    EPS ≤ ((glmPlaceField emission_predict_matrix coefficients is_track_interior).getD i
        none).getD 0 ∧
    (is_track_interior.getD i false = false →
      (glmPlaceField emission_predict_matrix coefficients is_track_interior).getD i none =
        some EPS) := by
  unfold glmPlaceField
  dsimp only
  have hpl : (emission_predict_matrix.map
      (fun row => fexp (fdot row coefficients))).length =
      emission_predict_matrix.length := by simp
  have hmlen : i < (List.zipWith (fun b v => if b then v else some EPS) is_track_interior
      (emission_predict_matrix.map (fun row => fexp (fdot row coefficients)))).length := by
    simp only [List.length_zipWith, hpl]
    omega
  rw [getD_map_of_lt (fclipMin EPS) _ i none none hmlen]
  rw [getD_zipWith_of_lt _ _ _ i false none none (by simpa using h2) (by simp [hpl, h1])]
  rw [getD_map_of_lt _ _ i [] none h1]
  obtain ⟨dv, hdv⟩ := Option.isSome_iff_exists.mp
    (fdot_isSome (emission_predict_matrix.getD i []) coefficients hrow)
  by_cases hb : is_track_interior.getD i false = true
  · rw [if_pos hb, hdv]
    refine ⟨by simp [fexp, fclipMin], by simp [fexp, fclipMin], fun hfalse => ?_⟩
    rw [hb] at hfalse
    exact absurd hfalse (by simp)
  · rw [if_neg hb]
    refine ⟨by simp [fclipMin], by simp [fclipMin], fun _ => by simp [fclipMin]⟩

theorem fwhere_gt0_isSome (a o : F) (ha : a.isSome = true) :
    ∃ w, fwhere (fgt0 o) (fdiv a o) (some EPS) = some w := by
  obtain ⟨av, hav⟩ := Option.isSome_iff_exists.mp ha
  cases o with
  | none => exact ⟨EPS, by simp [fgt0, fwhere]⟩
  | some ov =>
    by_cases h : 0 < ov
    · exact ⟨av / ov, by simp [fgt0, fwhere, h, hav, fdiv]⟩
    · exact ⟨EPS, by simp [fgt0, fwhere, h]⟩

theorem kde_clip_val (r : ℝ) (a o : F) (ha : a.isSome = true) :
    ((fclipMin EPS (fmul (some r) (fwhere (fgt0 o) (fdiv a o) (some EPS)))).isSome = true) ∧
    EPS ≤ (fclipMin EPS (fmul (some r) (fwhere (fgt0 o) (fdiv a o) (some EPS)))).getD 0 := by
  obtain ⟨w, hw⟩ := fwhere_gt0_isSome a o ha
  rw [hw]
  exact ⟨by simp [fmul, fclipMin], by simp [fmul, fclipMin]⟩

theorem make_spline_predict_matrix_fst_length (design_info : List ℝ → List ℝ)
    (position : List (List F)) :
    (make_spline_predict_matrix design_info position).1.length = position.length := by
  simp [make_spline_predict_matrix]

/-- C1 (amended): for the GLM backend every fitted place-field entry is a real
value at least `EPS` (hence nonzero) and entries at exterior bins equal `EPS`
exactly, as the claim states; for the KDE backend the claim must be weakened:
entries at interior bins are at least `EPS` whenever the neuron spiked at
least once and the usual shape invariants hold, but entries at exterior bins
are exactly `0` — not the epsilon floor. -/
theorem C1_amended_place_field_floor :
    (∀ (minimize : (List ℝ → ℝ) → List ℝ → OptimizeResult)
       (design_info : List ℝ → List ℝ) (emission_design_matrix : List (List ℝ))
       (spikes : List (List ℕ)) (place_bin_centers : List (List F))
       (is_track_interior : List Bool) (l2_penalty : ℝ) (n i : ℕ),
       n < ncols spikes → i < place_bin_centers.length → i < is_track_interior.length →
       (∀ x ∈ place_bin_centers.getD i [], x.isSome = true) →
       (((fit_sorted_spikes_glm_jax_encoding_model minimize design_info
           emission_design_matrix spikes place_bin_centers is_track_interior
           l2_penalty).place_fields.getD n []).getD i none).isSome = true ∧
       EPS ≤ (((fit_sorted_spikes_glm_jax_encoding_model minimize design_info
           emission_design_matrix spikes place_bin_centers is_track_interior
           l2_penalty).place_fields.getD n []).getD i none).getD 0 ∧
       (is_track_interior.getD i false = false →
         ((fit_sorted_spikes_glm_jax_encoding_model minimize design_info
             emission_design_matrix spikes place_bin_centers is_track_interior
             l2_penalty).place_fields.getD n []).getD i none = some EPS)) ∧
    (∀ (position interiorCenters : List (List ℝ)) (occupancy : List F)
       (position_std : ℝ) (block_size : ℕ) (is_track_interior : List Bool)
       (spikes : List (List ℕ)) (n : ℕ) (mm : KDEModel) (pf : List F),
       kdeNeuronFit position interiorCenters occupancy position_std block_size
         is_track_interior spikes n = some (mm, pf) →
       spikes.length ≠ 0 →
       mm.samples_ ≠ [] →
       is_track_interior.count true ≤ min interiorCenters.length occupancy.length →
       ∀ i, i < is_track_interior.length →
         (is_track_interior.getD i false = false → pf.getD i none = some 0) ∧
         (is_track_interior.getD i false = true →
           (pf.getD i none).isSome = true ∧ EPS ≤ (pf.getD i none).getD 0)) := by
  constructor
  · intro minimize design_info edm spikes centers interior l2 n i hn hic hii hcrow
    unfold fit_sorted_spikes_glm_jax_encoding_model
    dsimp only
    have hclen : ((List.range (ncols spikes)).map (fun n => fit_poisson_regression minimize
        edm (column n spikes 0) (List.replicate spikes.length (1 : ℝ)) l2)).length =
        ncols spikes := by simp
    rw [getD_map_of_lt (fun coef => glmPlaceField
      (make_spline_predict_matrix design_info centers).1 coef interior) _ n [] []
      (by rw [hclen]; exact hn)]
    exact glmPlaceField_getD _ _ interior i
      (by rw [make_spline_predict_matrix_fst_length]; exact hic) hii
      (make_spline_predict_matrix_row_isSome design_info centers i hic hcrow)
  · intro position ic occupancy std bs interior spikes n mm pf hfit hT hsamp hcount i hi
    obtain ⟨hmm, md, hmd, hpf⟩ := kdeNeuronFit_inv _ _ _ _ _ _ _ _ _ _ hfit
    have hmds : md = kde ic (maskSelect ((column n spikes 0).map (fun c => c != 0)) position)
        (List.replicate (ncols ic) std) := by
      have h0 := KDEModel_predict_eq _ ic md hmd
      rw [hmm] at h0
      simpa using h0
    have hsamp2 : maskSelect ((column n spikes 0).map (fun c => c != 0)) position ≠ [] := by
      rw [hmm] at hsamp
      simpa using hsamp
    have hmdlen : md.length = ic.length := by rw [hmds, kde_length]
    have hbase : (List.replicate interior.length (some (0:ℝ) : F)).length =
        interior.length := by simp
    constructor
    · intro hfalse
      rw [hpf, maskSet_getD_of_false _ _ _ i none (by rw [hbase]; exact hi) hfalse]
      rw [getD_replicate _ _ _ _ hi]
    · intro htrue
      have hvlen : interior.count true ≤ (List.zipWith (fun mdv occv => fclipMin EPS (fmul
          (if spikes.length = 0 then none
           else some (((column n spikes 0).sum : ℝ) / (spikes.length : ℝ)))
          (fwhere (fgt0 occv) (fdiv mdv occv) (some EPS)))) md occupancy).length := by
        simp only [List.length_zipWith, hmdlen]
        exact hcount
      have hmem := maskSet_getD_of_true_mem
        (List.replicate interior.length (some 0)) interior _ i none
        (by rw [hbase]; exact hi) htrue (by simp) hvlen
      rw [hpf] at *
      obtain ⟨a, hamem, o, homem, hx⟩ := exists_of_mem_zipWith _ _ _ _ hmem
      have hais : a.isSome = true := by
        apply kde_mem_isSome ic _ _ hsamp2
        rw [← hmds]
        exact hamem
      rw [hx, if_neg hT]
      exact kde_clip_val _ a o hais

/-- C1 witness: the amended floor property instantiated on concrete inputs for
both backends (an interior bin for the GLM fitter, and an exterior bin plus a
spiking neuron for the KDE per-neuron fit). -/
theorem C1_amended_place_field_floor_witness :
    (0 < ncols [[(0:ℕ), 0]] ∧
      (((fit_sorted_spikes_glm_jax_encoding_model (fun _ x0 => ⟨x0, true⟩) (fun r => r)
          [[1]] [[0, 0]] [[some 0]] [true] 0).place_fields.getD 0 []).getD 0
          none).isSome = true ∧
      EPS ≤ (((fit_sorted_spikes_glm_jax_encoding_model (fun _ x0 => ⟨x0, true⟩)
          (fun r => r) [[1]] [[0, 0]] [[some 0]] [true] 0).place_fields.getD 0 []).getD 0
          none).getD 0) ∧
    (kdeNeuronFit [[0]] [] [] 5 100 [false] [[1, 1]] 0 =
        some (⟨5, some 100, [[0]]⟩, [some 0]) ∧
      ([false].getD 0 false = false →
        ([some (0:ℝ)] : List F).getD 0 none = some 0)) := by
  have hfit : kdeNeuronFit [[0]] [] [] 5 100 [false] [[1, 1]] 0 =
      some (⟨5, some 100, [[0]]⟩, [some 0]) := by
    simp [kdeNeuronFit, KDEModel.predict, block_kde, blockKDEGo, maskSelect, column,
      ncols, maskSet]
  have hglm := C1_amended_place_field_floor.1 (fun _ x0 => ⟨x0, true⟩) (fun r => r)
    [[1]] [[0, 0]] [[some 0]] [true] 0 0 0 (by norm_num [ncols]) (by norm_num)
    (by norm_num) (by simp)
  have hkde := C1_amended_place_field_floor.2 [[0]] [] [] 5 100 [false] [[1, 1]] 0
    ⟨5, some 100, [[0]]⟩ [some 0] hfit (by norm_num) (by simp) (by simp) 0 (by norm_num)
  exact ⟨⟨by norm_num [ncols], hglm.1, hglm.2.1⟩, hfit, hkde.1⟩

end
